import Mathlib

/-!
A verification development of the computation-graph rewriting engine with
provenance tracking described in the repository's specification.  The graph
model, mutation operations, topological linearizer, pattern matcher, rewrite
engine and provenance tracker are modelled from the spec (the repository
snapshot only ships callers and tests of this core); the depth-to-space
transformation's matcher registration and guard are embedded from
`src/inference-engine/src/low_precision_transformations/src/depth_to_space.cpp`.
-/

namespace GraphSpec

/-- Node identifier: stable, unique within a graph instance. -/
abbrev NodeId := Nat

/-- Modelled from the spec: an Output identifies one produced value of a
node (node + output index). -/
structure Out where
  producer : NodeId
  index : Nat
  deriving DecidableEq, Repr

/-- Modelled from the spec: a Node has an operation-kind tag, an ordered
list of Inputs (each referencing one producer Output), a number of produced
Outputs, and a set of provenance tags. -/
structure Node where
  op : Nat
  inputs : List Out
  numOutputs : Nat
  tags : Finset String
  deriving DecidableEq

/-- Modelled from the spec: a graph instance owns all its nodes; we model
the arena as an association list from NodeId to Node. -/
structure Graph where
  nodes : List (NodeId × Node)
  deriving DecidableEq

/-- First-match association-list lookup. -/
def lookupNode : List (NodeId × Node) → NodeId → Option Node
  | [], _ => none
  | kv :: rest, n => if kv.1 = n then some kv.2 else lookupNode rest n

/-- Find a node in the graph by id. -/
def Graph.find (g : Graph) (n : NodeId) : Option Node :=
  lookupNode g.nodes n

/-- The list of node ids present in the arena. -/
def keysList (g : Graph) : List NodeId := g.nodes.map (·.1)

/-- The producers a node consumes: the producer ids of its Inputs
(empty for an id not in the arena). -/
def producersOf (g : Graph) (n : NodeId) : List NodeId :=
  match g.find n with
  | some nd => nd.inputs.map (·.producer)
  | none => []

/-- The dependency edge: `EdgeOf g a b` means node `a` directly consumes
an Output of node `b`. -/
def EdgeOf (g : Graph) (a b : NodeId) : Prop := b ∈ producersOf g a

instance (g : Graph) (a b : NodeId) : Decidable (EdgeOf g a b) :=
  inferInstanceAs (Decidable (b ∈ producersOf g a))

/-- Boolean list membership, kept definitionally simple. -/
def memB (n : NodeId) : List NodeId → Bool
  | [] => false
  | m :: rest => if m = n then true else memB n rest

theorem memB_iff (n : NodeId) (l : List NodeId) : memB n l = true ↔ n ∈ l := by
  induction l with
  | nil => simp [memB]
  | cons m rest ih =>
    by_cases h : m = n
    · simp [memB, h]
    · simp only [memB, if_neg h, ih, List.mem_cons]
      constructor
      · exact Or.inr
      · rintro (hnm | hr)
        · exact absurd hnm.symm h
        · exact hr

/-- One step of backward closure: add the producers of every member not in
the `stop` set (stop nodes are included when reached but never expanded). -/
def closureStep (g : Graph) (stop : List NodeId) (s : List NodeId) : List NodeId :=
  s ++ ((s.filter (fun n => !memB n stop)).flatMap (producersOf g)).filter (fun m => !memB m s)

/-- Fuel-bounded backward closure from a start set, not descending past
members of `stop`. -/
def closureExcept (g : Graph) (stop : List NodeId) : Nat → List NodeId → List NodeId
  | 0, s => s
  | fuel + 1, s => closureExcept g stop fuel (closureStep g stop s)

theorem mem_closureStep {g : Graph} {stop s : List NodeId} {x : NodeId} :
    x ∈ closureStep g stop s ↔
      x ∈ s ∨ ∃ n ∈ s, n ∉ stop ∧ x ∈ producersOf g n := by
  unfold closureStep
  simp only [List.mem_append, List.mem_filter, List.mem_flatMap,
    Bool.not_eq_true', ← Bool.not_eq_true, memB_iff]
  constructor
  · rintro (h | ⟨⟨n, ⟨hn, hns⟩, hx⟩, _⟩)
    · exact Or.inl h
    · exact Or.inr ⟨n, hn, by simpa using hns, hx⟩
  · rintro (h | ⟨n, hn, hns, hx⟩)
    · exact Or.inl h
    · by_cases hxs : x ∈ s
      · exact Or.inl hxs
      · exact Or.inr ⟨⟨n, ⟨hn, by simpa using hns⟩, hx⟩, by simpa using hxs⟩

theorem subset_closureStep {g : Graph} {stop s : List NodeId} {x : NodeId}
    (h : x ∈ s) : x ∈ closureStep g stop s :=
  mem_closureStep.mpr (Or.inl h)

theorem subset_closureExcept {g : Graph} {stop : List NodeId} (fuel : Nat)
    {s : List NodeId} {x : NodeId} (h : x ∈ s) :
    x ∈ closureExcept g stop fuel s := by
  induction fuel generalizing s with
  | zero => exact h
  | succ k ih => exact ih (subset_closureStep h)

theorem closureStep_mono {g : Graph} {stop s s' : List NodeId}
    (h : ∀ x ∈ s, x ∈ s') : ∀ x, x ∈ closureStep g stop s → x ∈ closureStep g stop s' := by
  intro x hx
  rcases mem_closureStep.mp hx with h1 | ⟨n, hn, hns, hp⟩
  · exact subset_closureStep (h x h1)
  · exact mem_closureStep.mpr (Or.inr ⟨n, h n hn, hns, hp⟩)

theorem closureExcept_mono {g : Graph} {stop : List NodeId} (fuel : Nat)
    {s s' : List NodeId} (h : ∀ x ∈ s, x ∈ s') :
    ∀ x, x ∈ closureExcept g stop fuel s → x ∈ closureExcept g stop fuel s' := by
  induction fuel generalizing s s' with
  | zero => exact h
  | succ k ih => exact ih (closureStep_mono h)

/-- Backward dependency paths: in `chainP g stop a l b` the list `l` holds
the nodes visited after `a` on a backward path from `a` to `b`; every node
the path steps out of (all but the final node) avoids `stop`. -/
def chainP (g : Graph) (stop : List NodeId) : NodeId → List NodeId → NodeId → Prop
  | a, [], b => a = b
  | a, c :: l, b => a ∉ stop ∧ EdgeOf g a c ∧ chainP g stop c l b

instance (g : Graph) (stop : List NodeId) (a : NodeId) (l : List NodeId) (b : NodeId) :
    Decidable (chainP g stop a l b) := by
  induction l generalizing a with
  | nil => exact inferInstanceAs (Decidable (a = b))
  | cons c l ih =>
    have : Decidable (chainP g stop c l b) := ih c
    exact inferInstanceAs (Decidable (_ ∧ _ ∧ _))

theorem chainP_join {g : Graph} {stop : List NodeId} {a c b : NodeId} {u w : List NodeId}
    (h1 : chainP g stop a u c) (h2 : chainP g stop c w b) :
    chainP g stop a (u ++ w) b := by
  induction u generalizing a with
  | nil => cases h1; exact h2
  | cons x u ih => exact ⟨h1.1, h1.2.1, ih h1.2.2⟩

theorem chainP_split {g : Graph} {stop : List NodeId} {a b c : NodeId} {u w : List NodeId}
    (h : chainP g stop a (u ++ c :: w) b) :
    chainP g stop a (u ++ [c]) c ∧ chainP g stop c w b := by
  induction u generalizing a with
  | nil => exact ⟨⟨h.1, h.2.1, rfl⟩, h.2.2⟩
  | cons x u ih =>
    obtain ⟨h1, h2⟩ := ih h.2.2
    exact ⟨⟨h.1, h.2.1, h1⟩, h2⟩

theorem closure_sound {g : Graph} {stop : List NodeId} (fuel : Nat)
    {s : List NodeId} {n : NodeId} (h : n ∈ closureExcept g stop fuel s) :
    ∃ a ∈ s, ∃ l, chainP g stop a l n := by
  induction fuel generalizing s with
  | zero => exact ⟨n, h, [], rfl⟩
  | succ k ih =>
    obtain ⟨a, ha, l, hl⟩ := ih h
    rcases mem_closureStep.mp ha with h1 | ⟨p, hp, hps, hpa⟩
    · exact ⟨a, h1, l, hl⟩
    · exact ⟨p, hp, a :: l, hps, hpa, hl⟩

theorem closure_complete {g : Graph} {stop : List NodeId} (fuel : Nat)
    {s : List NodeId} {a b : NodeId} {l : List NodeId}
    (hc : chainP g stop a l b) (ha : a ∈ s) (hlen : l.length ≤ fuel) :
    b ∈ closureExcept g stop fuel s := by
  induction fuel generalizing s a l with
  | zero =>
    rw [List.length_eq_zero.mp (Nat.le_zero.mp hlen)] at hc
    cases hc; exact ha
  | succ k ih =>
    match l, hc with
    | [], h => cases h; exact subset_closureExcept _ ha
    | c :: l', ⟨hstop, hedge, hrest⟩ =>
      have hc' : c ∈ closureStep g stop s :=
        mem_closureStep.mpr (Or.inr ⟨a, ha, hstop, hedge⟩)
      exact ih hrest hc' (Nat.le_of_succ_le_succ (by simpa using hlen))

theorem lookup_some_mem_keys {l : List (NodeId × Node)} {n : NodeId} {nd : Node}
    (h : lookupNode l n = some nd) : n ∈ l.map (·.1) := by
  induction l with
  | nil => simp [lookupNode] at h
  | cons kv rest ih =>
    by_cases hk : kv.1 = n
    · simp [hk]
    · simp only [lookupNode, if_neg hk] at h
      simp [ih h]

theorem chain_mem_keys {g : Graph} {stop : List NodeId} {a b : NodeId} {l : List NodeId}
    (h : chainP g stop a l b) : ∀ x ∈ a :: l, x = b ∨ x ∈ keysList g := by
  induction l generalizing a with
  | nil => cases h; intro x hx; simp at hx; exact Or.inl hx
  | cons c l' ih =>
    obtain ⟨hstop, hedge, hrest⟩ := h
    intro x hx
    rcases List.mem_cons.mp hx with hxa | hxr
    · subst hxa
      right
      unfold EdgeOf producersOf at hedge
      cases hfind : g.find x with
      | none => rw [hfind] at hedge; simp at hedge
      | some nd => exact lookup_some_mem_keys hfind
    · exact ih hrest x hxr

theorem exists_dup_split {m : List NodeId} (h : ¬ m.Nodup) :
    ∃ x u v w, m = u ++ x :: v ++ x :: w := by
  induction m with
  | nil => exact absurd List.nodup_nil h
  | cons y rest ih =>
    rw [List.nodup_cons] at h
    push_neg at h
    by_cases hy : y ∈ rest
    · obtain ⟨s, t, hst⟩ := List.append_of_mem hy
      exact ⟨y, [], s, t, by simp [hst]⟩
    · obtain ⟨x, u, v, w, huvw⟩ := ih (h hy)
      exact ⟨x, y :: u, v, w, by simp [huvw]⟩

theorem chainP_shorten {g : Graph} {stop : List NodeId} :
    ∀ (fuel : Nat) (l : List NodeId), l.length ≤ fuel → ∀ (a b : NodeId),
      chainP g stop a l b →
      ∃ l', chainP g stop a l' b ∧ (a :: l').Nodup ∧ l'.length ≤ l.length := by
  intro fuel
  induction fuel with
  | zero =>
    intro l hlen a b hc
    rw [List.length_eq_zero.mp (Nat.le_zero.mp hlen)] at hc ⊢
    cases hc
    exact ⟨[], rfl, List.nodup_singleton a, Nat.le_refl 0⟩
  | succ k ih =>
    intro l hlen a b hc
    by_cases hnd : (a :: l).Nodup
    · exact ⟨l, hc, hnd, Nat.le_refl _⟩
    · obtain ⟨x, u, v, w, hm⟩ := exists_dup_split hnd
      match u, hm with
      | [], hm =>
        have hax : a = x := by simpa using congrArg (fun t => t.headI) hm
        have hl : l = v ++ x :: w := by simpa using congrArg List.tail hm
        subst hax
        rw [hl] at hc
        have h2 := (chainP_split hc).2
        have hwlen : w.length ≤ k := by
          rw [hl] at hlen
          simp only [List.length_append, List.length_cons] at hlen
          omega
        obtain ⟨l', hc', hnd', hlen'⟩ := ih w hwlen a b h2
        refine ⟨l', hc', hnd', ?_⟩
        rw [hl]
        simp only [List.length_append, List.length_cons]
        omega
      | y :: u', hm =>
        have hl : l = u' ++ x :: (v ++ x :: w) := by
          have := congrArg List.tail hm
          simpa [List.append_assoc] using this
        rw [hl] at hc
        have h1 : chainP g stop a (u' ++ [x]) x ∧ chainP g stop x (v ++ x :: w) b :=
          chainP_split hc
        have h2 : chainP g stop x (v ++ [x]) x ∧ chainP g stop x w b :=
          chainP_split h1.2
        have hjoin : chainP g stop a ((u' ++ [x]) ++ w) b := chainP_join h1.1 h2.2
        have hlen2 : ((u' ++ [x]) ++ w).length ≤ k := by
          rw [hl] at hlen
          simp at hlen ⊢
          omega
        obtain ⟨l', hc', hnd', hlen'⟩ := ih _ hlen2 a b hjoin
        refine ⟨l', hc', hnd', ?_⟩
        rw [hl]
        simp at hlen' ⊢
        omega

theorem nodup_length_le_dedup {m S : List NodeId} (hnd : m.Nodup)
    (hsub : ∀ x ∈ m, x ∈ S) : m.length ≤ S.dedup.length := by
  have h1 : m.toFinset.card = m.length := List.toFinset_card_of_nodup hnd
  have h2 : m.toFinset ⊆ S.toFinset := by
    intro x hx
    rw [List.mem_toFinset] at hx ⊢
    exact hsub x hx
  have h3 : S.toFinset.card = S.dedup.length := List.card_toFinset S
  calc m.length = m.toFinset.card := h1.symm
    _ ≤ S.toFinset.card := Finset.card_le_card h2
    _ = S.dedup.length := h3

theorem chainP_bounded {g : Graph} {stop : List NodeId} {a b : NodeId} {l : List NodeId}
    (hc : chainP g stop a l b) :
    ∃ l', chainP g stop a l' b ∧ l'.length ≤ g.nodes.length := by
  obtain ⟨l', hc', hnd', _⟩ := chainP_shorten l.length l (Nat.le_refl _) a b hc
  refine ⟨l', hc', ?_⟩
  have hmem := chain_mem_keys hc'
  have hsub : ∀ x ∈ a :: l', x ∈ b :: keysList g := by
    intro x hx
    rcases hmem x hx with h1 | h1
    · simp [h1]
    · simp [h1]
  have := nodup_length_le_dedup hnd' hsub
  have hdlen : (b :: keysList g).dedup.length ≤ (b :: keysList g).length :=
    List.Sublist.length_le (List.dedup_sublist _)
  simp only [List.length_cons, keysList, List.length_map] at this hdlen ⊢
  omega

/-- Membership in the saturated backward closure is equivalent to the
existence of a stop-avoiding backward dependency path from the start set. -/
theorem mem_closure_iff_chain {g : Graph} {stop s : List NodeId} {n : NodeId} :
    n ∈ closureExcept g stop g.nodes.length s ↔
      ∃ a ∈ s, ∃ l, chainP g stop a l n := by
  constructor
  · exact closure_sound _
  · rintro ⟨a, ha, l, hl⟩
    obtain ⟨l', hl', hlen'⟩ := chainP_bounded hl
    exact closure_complete _ hl' ha hlen'

/-- Acyclicity of the dependency relation: no node transitively consumes
its own output. -/
def Acyclic (g : Graph) : Prop := ∀ n, ¬ Relation.TransGen (EdgeOf g) n n

/-- Executable acyclicity check over the arena. -/
def AcyclicB (g : Graph) : Bool :=
  (keysList g).all
    (fun n => !memB n (closureExcept g [] g.nodes.length (producersOf g n)))

theorem reflTransGen_of_chain {g : Graph} {a b : NodeId} {l : List NodeId}
    (h : chainP g [] a l b) : Relation.ReflTransGen (EdgeOf g) a b := by
  induction l generalizing a with
  | nil => cases h; exact Relation.ReflTransGen.refl
  | cons c l' ih => exact Relation.ReflTransGen.head h.2.1 (ih h.2.2)

theorem chain_of_reflTransGen {g : Graph} {a b : NodeId}
    (h : Relation.ReflTransGen (EdgeOf g) a b) : ∃ l, chainP g [] a l b := by
  induction h using Relation.ReflTransGen.head_induction_on with
  | refl => exact ⟨[], rfl⟩
  | head hedge _ ih =>
    obtain ⟨l, hl⟩ := ih
    exact ⟨_ :: l, by simp, hedge, hl⟩

/-- The executable acyclicity check agrees with the relational definition. -/
theorem AcyclicB_iff {g : Graph} : AcyclicB g = true ↔ Acyclic g := by
  unfold AcyclicB
  rw [List.all_eq_true]
  constructor
  · intro h n hcyc
    obtain ⟨c, hnc, hcn⟩ := Relation.TransGen.head'_iff.mp hcyc
    have hkey : n ∈ keysList g := by
      unfold EdgeOf producersOf at hnc
      cases hfind : g.find n with
      | none => rw [hfind] at hnc; simp at hnc
      | some nd => exact lookup_some_mem_keys hfind
    have hmem : n ∈ closureExcept g [] g.nodes.length (producersOf g n) := by
      obtain ⟨l, hl⟩ := chain_of_reflTransGen hcn
      exact mem_closure_iff_chain.mpr ⟨c, hnc, l, hl⟩
    have := h n hkey
    rw [Bool.not_eq_true', ← Bool.not_eq_true, memB_iff] at this
    exact this hmem
  · intro h n _
    rw [Bool.not_eq_true', ← Bool.not_eq_true, memB_iff]
    intro hmem
    obtain ⟨c, hc, l, hl⟩ := mem_closure_iff_chain.mp hmem
    exact h n (Relation.TransGen.head' hc (reflTransGen_of_chain hl))

/-- Error kinds of the mutation API (spec §7). -/
inductive GErr where
  | cycleError
  | shapeMismatch
  | danglingReference
  deriving DecidableEq, Repr

instance instDecEqExcept {ε α : Type} [DecidableEq ε] [DecidableEq α] :
    DecidableEq (Except ε α) := fun a b =>
  match a, b with
  | .ok x, .ok y =>
    if h : x = y then .isTrue (by rw [h])
    else .isFalse (by intro hc; cases hc; exact h rfl)
  | .error x, .error y =>
    if h : x = y then .isTrue (by rw [h])
    else .isFalse (by intro hc; cases hc; exact h rfl)
  | .ok _, .error _ => .isFalse (by intro hc; cases hc)
  | .error _, .ok _ => .isFalse (by intro hc; cases hc)

/-- Modelled from the spec: a Function is an ordered list of root Outputs
plus an ordered list of Parameter nodes. -/
structure Func where
  results : List Out
  parameters : List NodeId
  deriving DecidableEq

/-- A graph instance together with its retained Function view. -/
structure GState where
  graph : Graph
  fn : Func
  deriving DecidableEq

/-- Pointwise transformation of every node in the arena, keys unchanged. -/
def mapNodes (g : Graph) (f : NodeId → Node → Node) : Graph :=
  ⟨g.nodes.map (fun kv => (kv.1, f kv.1 kv.2))⟩

theorem find_mapNodes (g : Graph) (f : NodeId → Node → Node) (n : NodeId) :
    (mapNodes g f).find n = (g.find n).map (f n) := by
  show lookupNode (g.nodes.map _) n = _
  unfold Graph.find
  induction g.nodes with
  | nil => rfl
  | cons kv rest ih =>
    by_cases h : kv.1 = n
    · subst h; simp [lookupNode]
    · simp only [List.map_cons, lookupNode, if_neg h, ih]

theorem keysList_mapNodes (g : Graph) (f : NodeId → Node → Node) :
    keysList (mapNodes g f) = keysList g := by
  unfold keysList mapNodes
  simp

theorem length_mapNodes (g : Graph) (f : NodeId → Node → Node) :
    (mapNodes g f).nodes.length = g.nodes.length := by
  unfold mapNodes
  simp

theorem producersOf_mapNodes (g : Graph) (f : NodeId → Node → Node)
    (hf : ∀ k nd, (f k nd).inputs = nd.inputs) (n : NodeId) :
    producersOf (mapNodes g f) n = producersOf g n := by
  unfold producersOf
  rw [find_mapNodes]
  cases g.find n with
  | none => rfl
  | some nd => simp [hf]

theorem closureStep_congr {g1 g2 : Graph} (stop s : List NodeId)
    (hp : ∀ n, producersOf g1 n = producersOf g2 n) :
    closureStep g1 stop s = closureStep g2 stop s := by
  unfold closureStep
  congr 1
  congr 1
  induction s.filter (fun n => !memB n stop) with
  | nil => rfl
  | cons x rest ih => simp only [List.flatMap_cons, hp, ih]

theorem closureExcept_congr {g1 g2 : Graph} (stop : List NodeId) (fuel : Nat)
    (s : List NodeId) (hp : ∀ n, producersOf g1 n = producersOf g2 n) :
    closureExcept g1 stop fuel s = closureExcept g2 stop fuel s := by
  induction fuel generalizing s with
  | zero => rfl
  | succ k ih =>
    show closureExcept g1 stop k _ = closureExcept g2 stop k _
    rw [closureStep_congr stop s hp, ih]

theorem AcyclicB_congr {g1 g2 : Graph}
    (hp : ∀ n, producersOf g1 n = producersOf g2 n)
    (hk : keysList g1 = keysList g2)
    (hl : g1.nodes.length = g2.nodes.length) :
    AcyclicB g1 = AcyclicB g2 := by
  unfold AcyclicB
  rw [hk]
  congr 1
  funext n
  rw [hp, hl, closureExcept_congr _ _ _ hp]

/-- Updating a single input slot of a node. -/
def setInput (nd : Node) (slot : Nat) (p : Out) : Node :=
  { nd with inputs := nd.inputs.set slot p }

/-- Modelled from the spec: the raw rewiring of `connect`, with no checks. -/
def rawConnect (g : Graph) (c : NodeId) (slot : Nat) (p : Out) : Graph :=
  mapNodes g (fun k nd => if k = c then setInput nd slot p else nd)

/-- Modelled from the spec: `connect(consumer_input_slot, producer_output)`
rewires one Input to reference a new Output; fails with `CycleError` if this
would create a cycle, with `DanglingReferenceError` if the producer (or the
consumer slot) is not part of a consistent graph.  The mutation is
validated as a whole, so a failed call exposes no partial state. -/
def connect (g : Graph) (c : NodeId) (slot : Nat) (p : Out) : Except GErr Graph :=
  match g.find c, g.find p.producer with
  | some nd, some pnd =>
    if slot < nd.inputs.length ∧ p.index < pnd.numOutputs then
      if AcyclicB (rawConnect g c slot p) then .ok (rawConnect g c slot p)
      else .error .cycleError
    else .error .danglingReference
  | _, _ => .error .danglingReference

/-- Index-aligned retargeting of one Output reference. -/
def retargetOut (old new : NodeId) (o : Out) : Out :=
  if o.producer = old then ⟨new, o.index⟩ else o

/-- Modelled from the spec: the raw rewiring of `replace_node` — every
consumer reading any Output of `old` is retargeted to the index-aligned
Output of `new`. -/
def rawReplace (g : Graph) (old new : NodeId) : Graph :=
  mapNodes g (fun _ nd => { nd with inputs := nd.inputs.map (retargetOut old new) })

/-- Producer nodes of the Function's result Outputs. -/
def rootProducers (fn : Func) : List NodeId := fn.results.map (·.producer)

/-- Nodes that still reach a retained Function root on a forward path
avoiding `avoid` — computed as the backward closure from the root
producers that never descends past `avoid`. -/
def liveReach (g : Graph) (fn : Func) (avoid : NodeId) : List NodeId :=
  closureExcept g [avoid] g.nodes.length (rootProducers fn)

/-- Backward-reachable set of a single node. -/
def backSet (g : Graph) (n : NodeId) : List NodeId :=
  closureExcept g [] g.nodes.length [n]

/-- Modelled from the spec (§4.5): the killed nodes of a replacement: the
members of `U` (union of the backward-reachable sets of `old` and `new`)
that are post-dominated by `new`, i.e. that cannot reach a retained root
except through `new`. -/
def killedList (g : Graph) (fn : Func) (old new : NodeId) : List NodeId :=
  let live := liveReach g fn new
  (backSet g old ++ backSet g new).filter (fun n => !memB n live)

/-- Union of the provenance tags of a list of nodes. -/
def tagsOfNodes (g : Graph) (ks : List NodeId) : Finset String :=
  ks.foldr
    (fun n acc =>
      (match g.find n with
       | some nd => nd.tags
       | none => ∅) ∪ acc) ∅

/-- Merge a tag set into one node's provenance tags. -/
def mergeTags (g : Graph) (n : NodeId) (ts : Finset String) : Graph :=
  mapNodes g (fun k nd => if k = n then { nd with tags := nd.tags ∪ ts } else nd)

/-- Modelled from the spec: `replace_node(old, new)` retargets every
consumer of any Output of `old` to the index-aligned Output of `new`,
retargets the Function results likewise, fails with `ShapeMismatchError`
when the output arities differ and with `CycleError` when the rewiring
would create a cycle, and finally merges the tags of every killed node
into `new`'s provenance tags. -/
def retargetFn (fn : Func) (old new : NodeId) : Func :=
  { fn with results := fn.results.map (retargetOut old new) }

/-- The post-rewiring graph of a replacement with the killed nodes' tags
merged into `new`. -/
def mergedReplace (g : Graph) (fn : Func) (old new : NodeId) : Graph :=
  mergeTags (rawReplace g old new) new
    (tagsOfNodes (rawReplace g old new)
      (killedList (rawReplace g old new) (retargetFn fn old new) old new))

def replaceNode (s : GState) (old new : NodeId) : Except GErr GState :=
  match s.graph.find old, s.graph.find new with
  | some ond, some nnd =>
    if old = new then .ok s
    else if ond.numOutputs = nnd.numOutputs then
      if AcyclicB (rawReplace s.graph old new) then
        .ok ⟨mergedReplace s.graph s.fn old new, retargetFn s.fn old new⟩
      else .error .cycleError
    else .error .shapeMismatch
  | _, _ => .error .danglingReference

/-- Modelled from the spec: `add_provenance_tags_above(boundary_outputs,
tags)` walks backward from the call-target node, adds `tags` to every
visited node, and stops descending past any boundary node (the boundary
node still receives the tags, its producers are not visited). -/
def addTagsAboveG (g : Graph) (target : NodeId) (boundary : List Out)
    (ts : Finset String) : Graph :=
  let bnodes := boundary.map (·.producer)
  let visited := closureExcept g bnodes g.nodes.length [target]
  mapNodes g (fun k nd => if memB k visited then { nd with tags := nd.tags ∪ ts } else nd)

/-- The mutating call surface of the graph model. -/
inductive GraphOp where
  | connect (consumer : NodeId) (slot : Nat) (producer : Out)
  | replace (old new : NodeId)
  | addTags (target : NodeId) (boundary : List Out) (tags : Finset String)

/-- Run one mutating call; errors expose no partial state. -/
def runOp (s : GState) : GraphOp → Except GErr GState
  | .connect c slot p =>
    match connect s.graph c slot p with
    | .ok g' => .ok ⟨g', s.fn⟩
    | .error e => .error e
  | .replace old new => replaceNode s old new
  | .addTags t b ts =>
    match s.graph.find t with
    | some _ => .ok ⟨addTagsAboveG s.graph t b ts, s.fn⟩
    | none => .error .danglingReference

/-- A failed call leaves the state exactly as it was. -/
def stepOp (s : GState) (op : GraphOp) : GState :=
  match runOp s op with
  | .ok s' => s'
  | .error _ => s

/-- Run a sequence of mutating calls. -/
def runOps (s : GState) (ops : List GraphOp) : GState := ops.foldl stepOp s

theorem AcyclicB_mergeTags (g : Graph) (n : NodeId) (ts : Finset String) :
    AcyclicB (mergeTags g n ts) = AcyclicB g :=
  AcyclicB_congr
    (producersOf_mapNodes _ _ (fun k nd => by split <;> rfl))
    (keysList_mapNodes _ _) (length_mapNodes _ _)

theorem AcyclicB_addTagsAbove (g : Graph) (t : NodeId) (b : List Out)
    (ts : Finset String) : AcyclicB (addTagsAboveG g t b ts) = AcyclicB g :=
  AcyclicB_congr
    (producersOf_mapNodes _ _ (fun k nd => by split <;> rfl))
    (keysList_mapNodes _ _) (length_mapNodes _ _)

theorem connect_ok_eq {g : Graph} {c : NodeId} {slot : Nat} {p : Out} {g' : Graph}
    (h : connect g c slot p = .ok g') :
    g' = rawConnect g c slot p ∧ AcyclicB g' = true := by
  unfold connect at h
  split at h
  · split at h
    · split at h
      · cases h; exact ⟨rfl, by assumption⟩
      · cases h
    · cases h
  · cases h

theorem replace_ok_cases {s : GState} {old new : NodeId} {s' : GState}
    (h : replaceNode s old new = .ok s') :
    (old = new ∧ s' = s) ∨
      (old ≠ new ∧ AcyclicB (rawReplace s.graph old new) = true ∧
        s'.graph = mergedReplace s.graph s.fn old new ∧
        s'.fn = retargetFn s.fn old new) := by
  unfold replaceNode at h
  split at h
  · split at h
    · cases h; exact Or.inl ⟨by assumption, rfl⟩
    · split at h
      · split at h
        · cases h; exact Or.inr ⟨by assumption, by assumption, rfl, rfl⟩
        · cases h
      · cases h
  · cases h

theorem stepOp_ok {s : GState} {op : GraphOp} {s' : GState}
    (h : runOp s op = .ok s') : stepOp s op = s' := by
  unfold stepOp
  rw [h]

theorem stepOp_error {s : GState} {op : GraphOp} {e : GErr}
    (h : runOp s op = .error e) : stepOp s op = s := by
  unfold stepOp
  rw [h]

theorem runOp_ok_acyclic {s : GState} {op : GraphOp} {s' : GState}
    (hA : AcyclicB s.graph = true) (h : runOp s op = .ok s') :
    AcyclicB s'.graph = true := by
  cases op with
  | connect c slot p =>
    simp only [runOp] at h
    cases hc : connect s.graph c slot p with
    | ok g' =>
      rw [hc] at h
      cases h
      exact (connect_ok_eq hc).2
    | error e => rw [hc] at h; cases h
  | replace old new =>
    rcases replace_ok_cases h with ⟨_, h1⟩ | ⟨_, hacy, hg, _⟩
    · rw [h1]; exact hA
    · rw [hg]
      unfold mergedReplace
      rw [AcyclicB_mergeTags]
      exact hacy
  | addTags t b ts =>
    simp only [runOp] at h
    cases hf : s.graph.find t with
    | some nd =>
      rw [hf] at h
      cases h
      rw [AcyclicB_addTagsAbove]
      exact hA
    | none => rw [hf] at h; cases h

theorem stepOp_acyclic {s : GState} {op : GraphOp}
    (hA : AcyclicB s.graph = true) : AcyclicB (stepOp s op).graph = true := by
  cases hro : runOp s op with
  | ok s' => rw [stepOp_ok hro]; exact runOp_ok_acyclic hA hro
  | error e => rw [stepOp_error hro]; exact hA

theorem runOps_acyclic {s : GState} (ops : List GraphOp)
    (hA : AcyclicB s.graph = true) : AcyclicB (runOps s ops).graph = true := by
  induction ops generalizing s with
  | nil => exact hA
  | cons op rest ih => exact ih (stepOp_acyclic hA)

theorem retargetOut_producer_ne {old new : NodeId} (hne : old ≠ new) (o : Out) :
    (retargetOut old new o).producer ≠ old := by
  unfold retargetOut
  split
  next h => exact fun hc => hne hc.symm
  next h => exact h

theorem find_mergedReplace_inputs {g : Graph} {fn : Func} {old new n : NodeId}
    {nd : Node} (h : g.find n = some nd) :
    ∃ nd', (mergedReplace g fn old new).find n = some nd' ∧
      nd'.inputs = nd.inputs.map (retargetOut old new) ∧ nd.tags ⊆ nd'.tags := by
  unfold mergedReplace mergeTags rawReplace
  rw [find_mapNodes, find_mapNodes, h]
  simp only [Option.map_some']
  refine ⟨_, rfl, ?_, ?_⟩
  · dsimp only
    split <;> rfl
  · dsimp only
    split
    · exact Finset.subset_union_left
    · exact Finset.Subset.refl _

theorem find_mergedReplace_none {g : Graph} {fn : Func} {old new n : NodeId}
    (h : g.find n = none) : (mergedReplace g fn old new).find n = none := by
  unfold mergedReplace mergeTags rawReplace
  rw [find_mapNodes, find_mapNodes, h]
  rfl

theorem tags_subset_mapNodes {g : Graph} {f : NodeId → Node → Node}
    (hf : ∀ k nd, nd.tags ⊆ (f k nd).tags) {n : NodeId} {nd : Node}
    (h : g.find n = some nd) :
    ∃ nd', (mapNodes g f).find n = some nd' ∧ nd.tags ⊆ nd'.tags := by
  refine ⟨f n nd, ?_, hf n nd⟩
  rw [find_mapNodes, h]
  rfl

/-- C1: For every sequence of `connect`/`replace_node` calls starting from
an acyclic graph, the graph remains acyclic; any single call that would
introduce a cycle fails with `CycleError` and leaves the graph exactly as
it was before the call. -/
theorem claim1_acyclicity_invariant (s : GState) (ops : List GraphOp)
    (hA : AcyclicB s.graph = true) :
    Acyclic (runOps s ops).graph ∧
    (∀ op e, runOp s op = .error e → stepOp s op = s) ∧
    (∀ c slot p nd pnd,
      s.graph.find c = some nd → s.graph.find p.producer = some pnd →
      slot < nd.inputs.length → p.index < pnd.numOutputs →
      AcyclicB (rawConnect s.graph c slot p) = false →
      runOp s (.connect c slot p) = .error .cycleError) ∧
    (∀ old new ond nnd,
      s.graph.find old = some ond → s.graph.find new = some nnd →
      old ≠ new → ond.numOutputs = nnd.numOutputs →
      AcyclicB (rawReplace s.graph old new) = false →
      runOp s (.replace old new) = .error .cycleError) := by
  refine ⟨AcyclicB_iff.mp (runOps_acyclic ops hA),
    fun op e h => stepOp_error h, ?_, ?_⟩
  · intro c slot p nd pnd hfc hfp hs hi hcy
    simp [runOp, connect, hfc, hfp, hs, hi, hcy]
  · intro old new ond nnd hfo hfn hne har hcy
    simp [runOp, replaceNode, hfo, hfn, hne, har, hcy]

theorem claim1_witness :
    Acyclic (runOps ⟨⟨[(0, ⟨0, [], 1, ∅⟩), (1, ⟨0, [⟨0, 0⟩], 1, ∅⟩)]⟩,
      ⟨[⟨1, 0⟩], [0]⟩⟩ [GraphOp.connect 1 0 ⟨0, 0⟩]).graph :=
  (claim1_acyclicity_invariant _ _ (by decide)).1

/-- C2: after a successful `replace_node(old, new)`, no node holds an
Input referencing any Output of `old`; every consumer of any Output of
`old` is retargeted to the index-aligned Output of `new`. -/
theorem claim2_replace_completeness (s : GState) (old new : NodeId) (s' : GState)
    (hne : old ≠ new) (h : runOp s (.replace old new) = .ok s') :
    (∀ n nd', s'.graph.find n = some nd' → ∀ o ∈ nd'.inputs, o.producer ≠ old) ∧
    (∀ n nd, s.graph.find n = some nd →
      ∃ nd', s'.graph.find n = some nd' ∧
        nd'.inputs = nd.inputs.map (retargetOut old new)) := by
  rcases replace_ok_cases h with ⟨heq, _⟩ | ⟨_, _, hg, _⟩
  · exact absurd heq hne
  · constructor
    · intro n nd' hfind o ho
      rw [hg] at hfind
      cases hf0 : s.graph.find n with
      | none => rw [find_mergedReplace_none hf0] at hfind; cases hfind
      | some nd0 =>
        obtain ⟨nd1, hf1, hin, _⟩ := find_mergedReplace_inputs hf0
        rw [hf1] at hfind
        cases hfind
        rw [hin] at ho
        obtain ⟨o0, _, ho0⟩ := List.mem_map.mp ho
        rw [← ho0]
        exact retargetOut_producer_ne hne o0
    · intro n nd hf0
      rw [hg]
      obtain ⟨nd', hf', hin, _⟩ := find_mergedReplace_inputs hf0
      exact ⟨nd', hf', hin⟩

theorem claim2_witness :
    (∀ n nd',
      (stepOp ⟨⟨[(0, ⟨0, [], 1, ∅⟩), (1, ⟨1, [⟨0, 0⟩], 1, ∅⟩),
          (2, ⟨2, [⟨0, 0⟩], 1, ∅⟩)]⟩, ⟨[⟨1, 0⟩], [0]⟩⟩
        (.replace 1 2)).graph.find n = some nd' →
        ∀ o ∈ nd'.inputs, o.producer ≠ 1) ∧
    (∀ n nd,
      (⟨⟨[(0, ⟨0, [], 1, ∅⟩), (1, ⟨1, [⟨0, 0⟩], 1, ∅⟩),
          (2, ⟨2, [⟨0, 0⟩], 1, ∅⟩)]⟩, ⟨[⟨1, 0⟩], [0]⟩⟩ : GState).graph.find n =
          some nd →
      ∃ nd',
        (stepOp ⟨⟨[(0, ⟨0, [], 1, ∅⟩), (1, ⟨1, [⟨0, 0⟩], 1, ∅⟩),
            (2, ⟨2, [⟨0, 0⟩], 1, ∅⟩)]⟩, ⟨[⟨1, 0⟩], [0]⟩⟩
          (.replace 1 2)).graph.find n = some nd' ∧
          nd'.inputs = nd.inputs.map (retargetOut 1 2)) :=
  claim2_replace_completeness _ 1 2 _ (by decide) (by decide)

/-- C9: a `replace_node` call whose replacement does not provide the same
number of Outputs fails with the `ShapeMismatchError` condition, and every
mutating call that fails with any error leaves the graph state identical
to the state before the call. -/
theorem claim9_shape_mismatch_atomicity (s : GState) :
    (∀ old new ond nnd,
      s.graph.find old = some ond → s.graph.find new = some nnd →
      old ≠ new → ond.numOutputs ≠ nnd.numOutputs →
      runOp s (.replace old new) = .error .shapeMismatch) ∧
    (∀ op e, runOp s op = .error e → stepOp s op = s) := by
  refine ⟨?_, fun op e h => stepOp_error h⟩
  intro old new ond nnd hfo hfn hne har
  simp [runOp, replaceNode, hfo, hfn, hne, har]

theorem claim9_witness :
    runOp ⟨⟨[(0, ⟨0, [], 1, ∅⟩), (1, ⟨1, [], 2, ∅⟩)]⟩, ⟨[⟨0, 0⟩], []⟩⟩
      (.replace 0 1) = .error .shapeMismatch :=
  (claim9_shape_mismatch_atomicity _).1 0 1 _ _ rfl rfl
    (by decide) (by decide)

/-- C4: for every node surviving an operation, its provenance tag set
after the operation is a superset of its tag set before; tags are never
removed from a live node. -/
theorem claim4_tags_monotone (s : GState) (op : GraphOp) (n : NodeId) (nd : Node)
    (h : s.graph.find n = some nd) :
    ∃ nd', (stepOp s op).graph.find n = some nd' ∧ nd.tags ⊆ nd'.tags := by
  cases hro : runOp s op with
  | error e =>
    rw [stepOp_error hro]
    exact ⟨nd, h, Finset.Subset.refl _⟩
  | ok s' =>
    rw [stepOp_ok hro]
    cases op with
    | connect c slot p =>
      simp only [runOp] at hro
      cases hc : connect s.graph c slot p with
      | ok g' =>
        rw [hc] at hro
        cases hro
        obtain ⟨hg, _⟩ := connect_ok_eq hc
        subst hg
        exact tags_subset_mapNodes
          (fun k nd => by split <;> exact Finset.Subset.refl _) h
      | error e => rw [hc] at hro; cases hro
    | replace old new =>
      rcases replace_ok_cases hro with ⟨_, h1⟩ | ⟨_, _, hg, _⟩
      · rw [h1]
        exact ⟨nd, h, Finset.Subset.refl _⟩
      · rw [hg]
        obtain ⟨nd', hf', _, hts⟩ := find_mergedReplace_inputs h
        exact ⟨nd', hf', hts⟩
    | addTags t b ts =>
      simp only [runOp] at hro
      cases hf : s.graph.find t with
      | some nd0 =>
        rw [hf] at hro
        cases hro
        refine tags_subset_mapNodes (fun k nd => ?_) h
        dsimp only
        split
        · exact Finset.subset_union_left
        · exact Finset.Subset.refl _
      | none => rw [hf] at hro; cases hro

theorem claim4_witness :
    ∃ nd',
      (stepOp ⟨⟨[(0, ⟨0, [], 1, {"tag_a"}⟩), (1, ⟨1, [⟨0, 0⟩], 1, ∅⟩)]⟩,
          ⟨[⟨1, 0⟩], [0]⟩⟩ (.addTags 1 [] {"t"})).graph.find 0 = some nd' ∧
        ({"tag_a"} : Finset String) ⊆ nd'.tags :=
  claim4_tags_monotone _ (.addTags 1 [] {"t"}) 0 ⟨0, [], 1, {"tag_a"}⟩ (by decide)

/-- The concrete scenario of the post-dominance merge property: nodes
A (id 0, tags {"tag_a"}) and B (id 1, tags {"tag_b"}) both feed C (id 2,
tags {"tag_c"}, the Function result) and are consumed nowhere else; D
(id 3) is freshly constructed with no tags. -/
def scenarioABCD : GState :=
  ⟨⟨[(0, ⟨0, [], 1, {"tag_a"}⟩), (1, ⟨1, [], 1, {"tag_b"}⟩),
     (2, ⟨2, [⟨0, 0⟩, ⟨1, 0⟩], 1, {"tag_c"}⟩), (3, ⟨3, [], 1, ∅⟩)]⟩,
   ⟨[⟨2, 0⟩], []⟩⟩

/-- C5: with A{"tag_a"} and B{"tag_b"} both feeding C{"tag_c"} and consumed
nowhere else, replacing C with the freshly constructed tagless node D leaves
D with provenance tags {"tag_a","tag_b","tag_c"}: the tags of every node
post-dominated by the replacement root are unioned into the replacement,
even though it starts with no tags. -/
theorem claim5_postdominance_merge :
    ((stepOp scenarioABCD (.replace 2 3)).graph.find 3).map Node.tags =
      some {"tag_a", "tag_b", "tag_c"} := by
  have h1 : (((stepOp scenarioABCD (.replace 2 3)).graph.find 3).map Node.tags).getD ∅ =
      {"tag_a", "tag_b", "tag_c"} :=
    Finset.Subset.antisymm (by decide) (by decide)
  have h2 : (((stepOp scenarioABCD (.replace 2 3)).graph.find 3).map Node.tags).isSome
      = true := by decide
  cases hr : ((stepOp scenarioABCD (.replace 2 3)).graph.find 3).map Node.tags with
  | none => rw [hr] at h2; cases h2
  | some t =>
    rw [hr] at h1
    simp only [Option.getD_some] at h1
    rw [h1]

/-- Modelled from the spec: the subgraph backward-reachable from the given
roots (deduplicated). -/
def reachableFrom (g : Graph) (roots : List NodeId) : List NodeId :=
  (closureExcept g [] g.nodes.length roots).dedup

/-- A node is ready for emission when all its producers have been emitted. -/
def readyB (g : Graph) (emitted : List NodeId) (n : NodeId) : Bool :=
  (producersOf g n).all (fun p => memB p emitted)

/-- One layered round of the topological linearizer: emit every not-yet
emitted reachable node whose producers are all emitted. -/
def topoRound (g : Graph) (R emitted : List NodeId) : List NodeId :=
  emitted ++ R.filter (fun n => !memB n emitted && readyB g emitted n)

/-- Iterate topological rounds. -/
def topoIter (g : Graph) (R : List NodeId) : Nat → List NodeId → List NodeId
  | 0, em => em
  | k + 1, em => topoIter g R k (topoRound g R em)

/-- Modelled from the spec: `topological_sort(roots)` produces a sequence
of the nodes backward-reachable from the roots in which every node appears
after all nodes it depends on, each exactly once. -/
def topologicalSort (g : Graph) (roots : List NodeId) : List NodeId :=
  topoIter g (reachableFrom g roots) (reachableFrom g roots).length []

theorem mem_reachableFrom {g : Graph} {roots : List NodeId} {n : NodeId} :
    n ∈ reachableFrom g roots ↔
      ∃ r ∈ roots, Relation.ReflTransGen (EdgeOf g) r n := by
  unfold reachableFrom
  rw [List.mem_dedup, mem_closure_iff_chain]
  constructor
  · rintro ⟨a, ha, l, hl⟩
    exact ⟨a, ha, reflTransGen_of_chain hl⟩
  · rintro ⟨r, hr, hrt⟩
    obtain ⟨l, hl⟩ := chain_of_reflTransGen hrt
    exact ⟨r, hr, l, hl⟩

theorem nodup_reachableFrom (g : Graph) (roots : List NodeId) :
    (reachableFrom g roots).Nodup := List.nodup_dedup _

theorem closed_reachableFrom {g : Graph} {roots : List NodeId} {n p : NodeId}
    (hn : n ∈ reachableFrom g roots) (hp : p ∈ producersOf g n) :
    p ∈ reachableFrom g roots := by
  rw [mem_reachableFrom] at hn ⊢
  obtain ⟨r, hr, hrt⟩ := hn
  exact ⟨r, hr, hrt.tail hp⟩

theorem chain_last_mem {g : Graph} {stop : List NodeId} {a b : NodeId}
    {l : List NodeId} (h : chainP g stop a l b) : b ∈ a :: l := by
  induction l generalizing a with
  | nil => cases h; exact List.mem_singleton.mpr rfl
  | cons c l ih => exact List.mem_cons_of_mem _ (ih h.2.2)

theorem chain_cons_transGen {g : Graph} {a b c : NodeId} {l : List NodeId}
    (h : chainP g [] a (c :: l) b) : Relation.TransGen (EdgeOf g) a b :=
  Relation.TransGen.head' h.2.1 (reflTransGen_of_chain h.2.2)

/-- In an acyclic graph every nonempty node set has a member none of whose
producers lies in the set. -/
theorem exists_min_node {g : Graph} (hA : Acyclic g) (M : List NodeId)
    (hne : M ≠ []) : ∃ m ∈ M, ∀ p ∈ producersOf g m, p ∉ M := by
  by_contra hcon
  push_neg at hcon
  obtain ⟨m0, hm0⟩ := List.exists_mem_of_ne_nil M hne
  have grow : ∀ k, ∃ a l b, chainP g [] a l b ∧ l.length = k ∧
      ∀ x ∈ a :: l, x ∈ M := by
    intro k
    induction k with
    | zero => exact ⟨m0, [], m0, rfl, rfl, by simpa using hm0⟩
    | succ k ih =>
      obtain ⟨a, l, b, hc, hlen, hmem⟩ := ih
      have hb : b ∈ M := hmem b (chain_last_mem hc)
      obtain ⟨p, hp, hpM⟩ := hcon b hb
      have hstep : chainP g [] b [p] p := ⟨by simp, hp, rfl⟩
      refine ⟨a, l ++ [p], p, chainP_join hc hstep, by simp [hlen], ?_⟩
      intro x hx
      rcases List.mem_cons.mp hx with hxa | hxl
      · exact hmem x (by simp [hxa])
      · rcases List.mem_append.mp hxl with h1 | h1
        · exact hmem x (List.mem_cons_of_mem _ h1)
        · rw [List.mem_singleton.mp h1]
          exact hpM
  obtain ⟨a, l, b, hc, hlen, hmem⟩ := grow M.length
  have hnd : ¬ (a :: l).Nodup := by
    intro hnd
    have := nodup_length_le_dedup hnd hmem
    have hde : M.dedup.length ≤ M.length :=
      List.Sublist.length_le (List.dedup_sublist _)
    simp only [List.length_cons, hlen] at this
    omega
  obtain ⟨x, u, v, w, hm⟩ := exists_dup_split hnd
  match u, hm with
  | [], hm =>
    have hax : a = x := by simpa using congrArg (fun t => t.headI) hm
    have hl : l = v ++ x :: w := by simpa using congrArg List.tail hm
    subst hax
    rw [hl] at hc
    have h1 : chainP g [] a (v ++ [a]) a ∧ chainP g [] a w b := chainP_split hc
    rcases v with _ | ⟨v0, vr⟩
    · exact hA a (chain_cons_transGen h1.1)
    · exact hA a (chain_cons_transGen h1.1)
  | y :: u', hm =>
    have hl : l = u' ++ x :: (v ++ x :: w) := by
      have := congrArg List.tail hm
      simpa [List.append_assoc] using this
    rw [hl] at hc
    have h1 : chainP g [] a (u' ++ [x]) x ∧ chainP g [] x (v ++ x :: w) b :=
      chainP_split hc
    have h2 : chainP g [] x (v ++ [x]) x ∧ chainP g [] x w b :=
      chainP_split h1.2
    rcases v with _ | ⟨v0, vr⟩
    · exact hA x (chain_cons_transGen h2.1)
    · exact hA x (chain_cons_transGen h2.1)

/-- Invariant of the layered topological linearizer: the emitted list draws
from `R`, has no duplicates, and every emitted node's producers appear
strictly earlier. -/
def TopoInv (g : Graph) (R em : List NodeId) : Prop :=
  (∀ x ∈ em, x ∈ R) ∧ em.Nodup ∧
  (∀ u n v, em = u ++ n :: v → ∀ p ∈ producersOf g n, p ∈ u)

theorem block_ready {g : Graph} {R em : List NodeId} {n : NodeId}
    (h : n ∈ R.filter (fun x => !memB x em && readyB g em x)) :
    n ∈ R ∧ memB n em = false ∧ ∀ p ∈ producersOf g n, p ∈ em := by
  obtain ⟨hR, hcond⟩ := List.mem_filter.mp h
  rw [Bool.and_eq_true, Bool.not_eq_true'] at hcond
  refine ⟨hR, hcond.1, ?_⟩
  intro p hp
  have := (List.all_eq_true.mp hcond.2) p hp
  exact (memB_iff p em).mp this

theorem topoRound_inv {g : Graph} {R em : List NodeId} (hRnd : R.Nodup)
    (h : TopoInv g R em) : TopoInv g R (topoRound g R em) := by
  obtain ⟨hsub, hnd, hord⟩ := h
  refine ⟨?_, ?_, ?_⟩
  · intro x hx
    rcases List.mem_append.mp hx with h1 | h1
    · exact hsub x h1
    · exact (block_ready h1).1
  · refine List.Nodup.append hnd (List.Nodup.filter _ hRnd) ?_
    intro x hxem hxblock
    have h2 := (block_ready hxblock).2.1
    rw [← memB_iff] at hxem
    rw [hxem] at h2
    cases h2
  · intro u n v heq p hp
    rcases List.append_eq_append_iff.mp heq with ⟨a', hu, hblock⟩ | ⟨c', hem, hcv⟩
    · have hn : n ∈ R.filter (fun x => !memB x em && readyB g em x) := by
        rw [hblock]
        exact List.mem_append.mpr (Or.inr (List.mem_cons_self n v))
      have := (block_ready hn).2.2 p hp
      rw [hu]
      exact List.mem_append.mpr (Or.inl this)
    · cases c' with
      | nil =>
        have hem' : em = u := by simpa using hem
        have hn : n ∈ R.filter (fun x => !memB x em && readyB g em x) := by
          have : n :: v = R.filter (fun x => !memB x em && readyB g em x) := by
            simpa using hcv
          rw [← this]
          exact List.mem_cons_self n v
        have := (block_ready hn).2.2 p hp
        rw [← hem']
        exact this
      | cons n' c'' =>
        have hn' : n' = n ∧ c'' ++ R.filter (fun x => !memB x em && readyB g em x) = v := by
          have := hcv
          simp only [List.cons_append] at this
          exact ⟨(List.cons.injEq _ _ _ _ ▸ this).1.symm, ((List.cons.injEq _ _ _ _ ▸ this).2).symm⟩
        have hemu : em = u ++ n :: c'' := by rw [hem, hn'.1]
        exact hord u n c'' hemu p hp

theorem topoIter_suffix (g : Graph) (R : List NodeId) :
    ∀ (k : Nat) (em : List NodeId), ∃ suf, topoIter g R k em = em ++ suf := by
  intro k
  induction k with
  | zero => intro em; exact ⟨[], (List.append_nil em).symm⟩
  | succ k ih =>
    intro em
    obtain ⟨suf, hsuf⟩ := ih (topoRound g R em)
    refine ⟨R.filter (fun x => !memB x em && readyB g em x) ++ suf, ?_⟩
    show topoIter g R k (topoRound g R em) = _
    rw [hsuf]
    unfold topoRound
    rw [List.append_assoc]

theorem topoIter_inv {g : Graph} {R : List NodeId} (hRnd : R.Nodup) :
    ∀ (k : Nat) (em : List NodeId), TopoInv g R em →
      TopoInv g R (topoIter g R k em) := by
  intro k
  induction k with
  | zero => intro em h; exact h
  | succ k ih => intro em h; exact ih _ (topoRound_inv hRnd h)

theorem topoIter_cover {g : Graph} {R : List NodeId} (hA : Acyclic g)
    (hclosed : ∀ n ∈ R, ∀ p ∈ producersOf g n, p ∈ R) (hRnd : R.Nodup) :
    ∀ (k : Nat) (em : List NodeId), TopoInv g R em →
      R.length ≤ em.length + k → ∀ n ∈ R, n ∈ topoIter g R k em := by
  intro k
  induction k with
  | zero =>
    intro em hinv hlen n hn
    obtain ⟨hsub, hnd, _⟩ := hinv
    have h1 : em.toFinset ⊆ R.toFinset := fun x hx =>
      List.mem_toFinset.mpr (hsub x (List.mem_toFinset.mp hx))
    have hcards : R.toFinset.card ≤ em.toFinset.card := by
      rw [List.toFinset_card_of_nodup hnd, List.toFinset_card_of_nodup hRnd]
      simpa using hlen
    have heq := Finset.eq_of_subset_of_card_le h1 hcards
    have : n ∈ em.toFinset := by rw [heq]; exact List.mem_toFinset.mpr hn
    exact List.mem_toFinset.mp this
  | succ k ih =>
    intro em hinv hlen n hn
    by_cases hall : ∀ m ∈ R, m ∈ em
    · obtain ⟨suf, hsuf⟩ := topoIter_suffix g R (k + 1) em
      rw [hsuf]
      exact List.mem_append.mpr (Or.inl (hall n hn))
    · push_neg at hall
      obtain ⟨n0, hn0R, hn0em⟩ := hall
      have hMne : R.filter (fun m => !memB m em) ≠ [] := by
        intro hemp
        have : n0 ∈ R.filter (fun m => !memB m em) :=
          List.mem_filter.mpr ⟨hn0R, by
            rw [Bool.not_eq_true', ← Bool.not_eq_true, memB_iff]
            exact hn0em⟩
        rw [hemp] at this
        cases this
      obtain ⟨m, hmM, hmmin⟩ := exists_min_node hA _ hMne
      obtain ⟨hmR, hmnem⟩ := List.mem_filter.mp hmM
      have hready : readyB g em m = true := by
        unfold readyB
        rw [List.all_eq_true]
        intro p hp
        have hpR := hclosed m hmR p hp
        have hpnotM := hmmin p hp
        rw [memB_iff]
        by_contra hc
        exact hpnotM (List.mem_filter.mpr ⟨hpR, by
          rw [Bool.not_eq_true', ← Bool.not_eq_true, memB_iff]
          exact hc⟩)
      have hmblock : m ∈ R.filter (fun x => !memB x em && readyB g em x) :=
        List.mem_filter.mpr ⟨hmR, by rw [Bool.and_eq_true]; exact ⟨hmnem, hready⟩⟩
      have hgrow : em.length + 1 ≤ (topoRound g R em).length := by
        unfold topoRound
        rw [List.length_append]
        have := List.length_pos.mpr (List.ne_nil_of_mem hmblock)
        omega
      show n ∈ topoIter g R k (topoRound g R em)
      exact ih (topoRound g R em) (topoRound_inv hRnd hinv) (by omega) n hn

/-- C3: the sequence produced by the topological linearizer contains
exactly the nodes backward-reachable from the roots, each exactly once,
and every node's producers appear strictly earlier in the sequence. -/
theorem claim3_topological_sort (g : Graph) (roots : List NodeId)
    (hA : AcyclicB g = true) :
    (∀ n, n ∈ topologicalSort g roots ↔
      ∃ r ∈ roots, Relation.ReflTransGen (EdgeOf g) r n) ∧
    (topologicalSort g roots).Nodup ∧
    (∀ u n v, topologicalSort g roots = u ++ n :: v →
      ∀ p ∈ producersOf g n, p ∈ u) := by
  have hAc := AcyclicB_iff.mp hA
  have hRnd := nodup_reachableFrom g roots
  have hinv0 : TopoInv g (reachableFrom g roots) [] := by
    refine ⟨by simp, List.nodup_nil, ?_⟩
    intro u n v h
    exact absurd h.symm (List.append_ne_nil_of_right_ne_nil u (List.cons_ne_nil n v))
  obtain ⟨hsub, hnd, hord⟩ :=
    topoIter_inv hRnd (reachableFrom g roots).length [] hinv0
  refine ⟨?_, hnd, hord⟩
  intro n
  constructor
  · intro hmem
    exact mem_reachableFrom.mp (hsub n hmem)
  · intro hreach
    exact topoIter_cover hAc (fun x hx p hp => closed_reachableFrom hx hp) hRnd
      (reachableFrom g roots).length [] hinv0 (by simp)
      n (mem_reachableFrom.mpr hreach)

theorem claim3_witness :
    (∀ n, n ∈ topologicalSort
        ⟨[(0, ⟨0, [], 1, ∅⟩), (1, ⟨1, [⟨0, 0⟩], 1, ∅⟩),
          (2, ⟨2, [⟨0, 0⟩], 1, ∅⟩), (3, ⟨3, [⟨1, 0⟩, ⟨2, 0⟩], 1, ∅⟩)]⟩ [3] ↔
      ∃ r ∈ [3], Relation.ReflTransGen
        (EdgeOf ⟨[(0, ⟨0, [], 1, ∅⟩), (1, ⟨1, [⟨0, 0⟩], 1, ∅⟩),
          (2, ⟨2, [⟨0, 0⟩], 1, ∅⟩), (3, ⟨3, [⟨1, 0⟩, ⟨2, 0⟩], 1, ∅⟩)]⟩) r n) ∧
    (topologicalSort
        ⟨[(0, ⟨0, [], 1, ∅⟩), (1, ⟨1, [⟨0, 0⟩], 1, ∅⟩),
          (2, ⟨2, [⟨0, 0⟩], 1, ∅⟩), (3, ⟨3, [⟨1, 0⟩, ⟨2, 0⟩], 1, ∅⟩)]⟩ [3]).Nodup ∧
    (∀ u n v, topologicalSort
        ⟨[(0, ⟨0, [], 1, ∅⟩), (1, ⟨1, [⟨0, 0⟩], 1, ∅⟩),
          (2, ⟨2, [⟨0, 0⟩], 1, ∅⟩), (3, ⟨3, [⟨1, 0⟩, ⟨2, 0⟩], 1, ∅⟩)]⟩ [3] =
          u ++ n :: v →
      ∀ p ∈ producersOf
        ⟨[(0, ⟨0, [], 1, ∅⟩), (1, ⟨1, [⟨0, 0⟩], 1, ∅⟩),
          (2, ⟨2, [⟨0, 0⟩], 1, ∅⟩), (3, ⟨3, [⟨1, 0⟩, ⟨2, 0⟩], 1, ∅⟩)]⟩ n, p ∈ u) :=
  claim3_topological_sort _ [3] (by decide)

theorem mem_visited_iff {g : Graph} {bnodes : List NodeId} {target n : NodeId} :
    n ∈ closureExcept g bnodes g.nodes.length [target] ↔
      ∃ l, chainP g bnodes target l n := by
  rw [mem_closure_iff_chain]
  constructor
  · rintro ⟨a, ha, l, hl⟩
    rw [List.mem_singleton.mp ha] at hl
    exact ⟨l, hl⟩
  · rintro ⟨l, hl⟩
    exact ⟨target, List.mem_singleton.mpr rfl, l, hl⟩

/-- C6: the call add_provenance_tags_above(boundary, tags) adds the tags to every
node on a boundary-respecting backward path from the call target (boundary
nodes included), leaves every other node untouched — so no producer above a
boundary node is tagged through it — and with an empty boundary tags every
transitive producer of the target. -/
theorem claim6_tags_above_boundary (g : Graph) (target : NodeId)
    (boundary : List Out) (ts : Finset String) :
    (∀ n l nd, chainP g (boundary.map (·.producer)) target l n →
      g.find n = some nd →
      ∃ nd', (addTagsAboveG g target boundary ts).find n = some nd' ∧
        nd'.tags = nd.tags ∪ ts) ∧
    (∀ n, (¬ ∃ l, chainP g (boundary.map (·.producer)) target l n) →
      (addTagsAboveG g target boundary ts).find n = g.find n) ∧
    (boundary = [] → ∀ n nd, Relation.ReflTransGen (EdgeOf g) target n →
      g.find n = some nd →
      ∃ nd', (addTagsAboveG g target boundary ts).find n = some nd' ∧
        ts ⊆ nd'.tags) := by
  refine ⟨?_, ?_, ?_⟩
  · intro n l nd hchain hfind
    have hvis : n ∈ closureExcept g (boundary.map (·.producer))
        g.nodes.length [target] := mem_visited_iff.mpr ⟨l, hchain⟩
    unfold addTagsAboveG
    rw [find_mapNodes, hfind]
    simp only [Option.map_some']
    rw [(memB_iff _ _).mpr hvis]
    exact ⟨_, rfl, rfl⟩
  · intro n hnot
    have hvis : n ∉ closureExcept g (boundary.map (·.producer))
        g.nodes.length [target] := fun h => hnot (mem_visited_iff.mp h)
    have hmem : memB n (closureExcept g (boundary.map (·.producer))
        g.nodes.length [target]) = false := by
      rw [← Bool.not_eq_true, memB_iff]
      exact hvis
    unfold addTagsAboveG
    rw [find_mapNodes]
    cases g.find n with
    | none => rfl
    | some nd =>
      simp only [Option.map_some']
      rw [hmem]
      simp
  · intro hb n nd hreach hfind
    subst hb
    obtain ⟨l, hl⟩ := chain_of_reflTransGen hreach
    have hvis : n ∈ closureExcept g ([] : List NodeId) g.nodes.length [target] := by
      refine mem_visited_iff.mpr ⟨l, ?_⟩
      simpa using hl
    unfold addTagsAboveG
    rw [find_mapNodes, hfind]
    simp only [Option.map_some', List.map_nil]
    have hmemT : memB n (closureExcept g ([] : List NodeId) g.nodes.length
        [target]) = true := (memB_iff _ _).mpr hvis
    simp only [hmemT, if_true]
    exact ⟨_, rfl, Finset.subset_union_right⟩

theorem claim6_witness :
    ∃ nd',
      (addTagsAboveG ⟨[(0, ⟨0, [], 1, ∅⟩), (1, ⟨1, [⟨0, 0⟩], 1, {"q"}⟩),
          (2, ⟨2, [⟨1, 0⟩], 1, ∅⟩)]⟩ 2 [⟨1, 0⟩] {"t"}).find 1 = some nd' ∧
        nd'.tags = ({"q"} : Finset String) ∪ {"t"} :=
  (claim6_tags_above_boundary
      ⟨[(0, ⟨0, [], 1, ∅⟩), (1, ⟨1, [⟨0, 0⟩], 1, {"q"}⟩),
        (2, ⟨2, [⟨1, 0⟩], 1, ∅⟩)]⟩ 2 [⟨1, 0⟩] {"t"}).1
    1 [1] ⟨1, [⟨0, 0⟩], 1, {"q"}⟩ (by decide) (by decide)

mutual
/-- Modelled from the spec (§4.3) and the `wrap_type` pattern construction
in depth_to_space.cpp: a pattern node matches candidates of one operation
kind; `wrapArgs` additionally matches its argument patterns against the
candidate's producers (arity must agree), while `wrapAny` leaves the
candidate's inputs unconstrained. -/
inductive Pattern where
  | wrapAny (op : Nat) : Pattern
  | wrapArgs (op : Nat) (args : PatternArgs) : Pattern
inductive PatternArgs where
  | nil : PatternArgs
  | cons (p : Pattern) (ps : PatternArgs) : PatternArgs
end

mutual
/-- Top-down structural matching of a pattern against a candidate root. -/
def matchPattern (g : Graph) : Pattern → NodeId → Bool
  | .wrapAny op, n =>
    match g.find n with
    | some nd => nd.op == op
    | none => false
  | .wrapArgs op args, n =>
    match g.find n with
    | some nd => nd.op == op && matchArgs g args nd.inputs
    | none => false

/-- Match a pattern argument list against the candidate's Input list. -/
def matchArgs (g : Graph) : PatternArgs → List Out → Bool
  | .nil, [] => true
  | .cons p ps, o :: os => matchPattern g p o.producer && matchArgs g ps os
  | .nil, _ :: _ => false
  | .cons _ _, [] => false
end

/-- Modelled from the spec (§4.4, §6): a registered rule is a pattern, a
guard callback and a rewrite callback. -/
structure Rule where
  pat : Pattern
  guard : Graph → NodeId → Bool
  rewrite : Graph → NodeId → Graph

/-- Try the registered rules at one node in registration order: the first
rule whose pattern matches and whose guard proceeds runs its rewrite. -/
def tryRulesAt (g : Graph) : List Rule → NodeId → Option Graph
  | [], _ => none
  | r :: rs, n =>
    if matchPattern g r.pat n && r.guard g n then some (r.rewrite g n)
    else tryRulesAt g rs n

/-- One visited node of a pass: apply at most one rewrite, counting it. -/
def passStep (rules : List Rule) : Graph × Nat → NodeId → Graph × Nat
  | (g, cnt), n =>
    match tryRulesAt g rules n with
    | some g' => (g', cnt + 1)
    | none => (g, cnt)

/-- One pass: a topological traversal of the reachable nodes, counting the
successful rewrites. -/
def onePass (g : Graph) (rules : List Rule) (roots : List NodeId) :
    Graph × Nat :=
  (topologicalSort g roots).foldl (passStep rules) (g, 0)

/-- The two distinct stopping conditions of the rewrite engine. -/
inductive StopReason where
  | noRewritesPending
  | limitReached
  deriving DecidableEq, Repr

/-- The engine's report: final graph, passes run, and why it stopped. -/
structure RunResult where
  graph : Graph
  passes : Nat
  outcome : StopReason
  deriving DecidableEq

/-- Modelled from the spec: iterate passes until a pass makes zero
rewrites (fixpoint) or the pass budget is exhausted. -/
def runPasses (rules : List Rule) (roots : List NodeId) :
    Nat → Graph → Nat → RunResult
  | 0, g, done => ⟨g, done, .limitReached⟩
  | k + 1, g, done =>
    if (onePass g rules roots).2 = 0 then
      ⟨(onePass g rules roots).1, done + 1, .noRewritesPending⟩
    else runPasses rules roots k (onePass g rules roots).1 (done + 1)

theorem runPasses_succ (rules : List Rule) (roots : List NodeId) (k : Nat)
    (g : Graph) (done : Nat) :
    runPasses rules roots (k + 1) g done =
      if (onePass g rules roots).2 = 0 then
        ⟨(onePass g rules roots).1, done + 1, .noRewritesPending⟩
      else runPasses rules roots k (onePass g rules roots).1 (done + 1) := by
  rfl

/-- Run the rewrite engine with a maximum pass count. -/
def runEngine (g : Graph) (rules : List Rule) (roots : List NodeId)
    (maxPasses : Nat) : RunResult :=
  runPasses rules roots maxPasses g 0

/-- Operation-kind code of DepthToSpace. -/
def opDepthToSpace : Nat := 1

/-- Operation-kind code of Multiply. -/
def opMultiply : Nat := 2

/-- Embedded from the DepthToSpaceTransformation constructor
(depth_to_space.cpp lines 17-30): the registered matcher is
`wrap_type<DepthToSpace>({ wrap_type<Multiply>() })`. -/
def dtsPattern : Pattern :=
  .wrapArgs opDepthToSpace (.cons (.wrapAny opMultiply) .nil)

/-- Modelled from the spec: a constant tensor as the list of its values. -/
structure ConstantTensor where
  values : List Int

/-- Modelled from the spec: a constant is scalar-like when all its values
agree (a per-tensor scalar). -/
def isScalarLike (c : ConstantTensor) : Bool :=
  match c.values with
  | [] => true
  | v :: vs => vs.all (fun x => x == v)

/-- Modelled from the spec: the dequantization preceding a layer — its
optional Multiply and Subtract constants. -/
structure Dequantization where
  multiply : Option ConstantTensor
  subtract : Option ConstantTensor

/-- Embedded from DepthToSpaceTransformation::canBeTransformed
(depth_to_space.cpp lines 32-51): the guard vetoes the rewrite if the base
layer-transformation precondition fails, or if a present dequantization
Multiply or Subtract constant is not scalar-like. -/
def canBeTransformed (base : Bool) (deq : Dequantization) : Bool :=
  if !base then false
  else if (match deq.multiply with
           | some c => !isScalarLike c
           | none => false) then false
  else if (match deq.subtract with
           | some c => !isScalarLike c
           | none => false) then false
  else true

/-- C7: a guard returning false vetoes the rewrite: the rule is skipped,
no mutation or rewrite count occurs at the node and the pass continues
normally; and the depth-to-space guard returns false whenever the matched
layer's dequantization Multiply or Subtract constant is not scalar-like. -/
theorem claim7_guard_veto (g : Graph) (n : NodeId) (r : Rule) (rs : List Rule)
    (hguard : r.guard g n = false) :
    tryRulesAt g (r :: rs) n = tryRulesAt g rs n ∧
    (∀ cnt, tryRulesAt g (r :: rs) n = none →
      passStep (r :: rs) (g, cnt) n = (g, cnt)) ∧
    (∀ base deq c, deq.multiply = some c → isScalarLike c = false →
      canBeTransformed base deq = false) ∧
    (∀ base deq c, deq.subtract = some c → isScalarLike c = false →
      canBeTransformed base deq = false) := by
  refine ⟨?_, ?_, ?_, ?_⟩
  · simp [tryRulesAt, hguard]
  · intro cnt h
    simp [passStep, h]
  · intro base deq c hm hsc
    cases base <;> simp [canBeTransformed, hm, hsc]
  · intro base deq c hm hsc
    cases hmul : deq.multiply with
    | none => cases base <;> simp [canBeTransformed, hmul, hm, hsc]
    | some cm =>
      cases hsl : isScalarLike cm <;> cases base <;>
        simp [canBeTransformed, hmul, hm, hsc, hsl]

theorem claim7_witness :
    tryRulesAt ⟨[(0, ⟨1, [⟨1, 0⟩], 1, ∅⟩), (1, ⟨2, [], 1, ∅⟩)]⟩
      ({ pat := dtsPattern,
         guard := fun _ _ =>
           canBeTransformed true ⟨some ⟨[1, 2]⟩, none⟩,
         rewrite := fun g _ => g } :: []) 0 =
      tryRulesAt ⟨[(0, ⟨1, [⟨1, 0⟩], 1, ∅⟩), (1, ⟨2, [], 1, ∅⟩)]⟩ [] 0 :=
  (claim7_guard_veto _ 0 _ [] (by decide)).1

theorem foldl_passStep_id {rules : List Rule} {g : Graph}
    (l : List NodeId) (hno : ∀ n ∈ l, tryRulesAt g rules n = none) :
    ∀ cnt, l.foldl (passStep rules) (g, cnt) = (g, cnt) := by
  induction l with
  | nil => intro cnt; rfl
  | cons x xs ih =>
    intro cnt
    have hx := hno x (List.mem_cons_self x xs)
    show xs.foldl (passStep rules) (passStep rules (g, cnt) x) = (g, cnt)
    rw [show passStep rules (g, cnt) x = (g, cnt) by simp [passStep, hx]]
    exact ih (fun n hn => hno n (List.mem_cons_of_mem x hn)) cnt

/-- C8: with no applicable rule on any reachable node the engine performs
exactly one pass with zero rewrites and reports the no-rewrites-pending
outcome, distinct from the limit-reached outcome; the limit-reached
outcome occurs exactly when the whole pass budget is consumed. -/
theorem claim8_fixpoint_termination (g : Graph) (rules : List Rule)
    (roots : List NodeId) (m : Nat)
    (hno : ∀ n ∈ topologicalSort g roots, tryRulesAt g rules n = none) :
    runEngine g rules roots (m + 1) = ⟨g, 1, .noRewritesPending⟩ ∧
    StopReason.noRewritesPending ≠ StopReason.limitReached ∧
    (∀ k g0 done, (runPasses rules roots k g0 done).outcome = .limitReached →
      (runPasses rules roots k g0 done).passes = done + k) := by
  refine ⟨?_, by simp, ?_⟩
  · have hpass : onePass g rules roots = (g, 0) :=
      foldl_passStep_id (topologicalSort g roots) hno 0
    show runPasses rules roots (m + 1) g 0 = _
    rw [runPasses_succ, hpass]
    simp
  · intro k
    induction k with
    | zero => intro g0 done _; simp [runPasses]
    | succ k ih =>
      intro g0 done houtcome
      rw [runPasses_succ] at houtcome ⊢
      by_cases hc : (onePass g0 rules roots).2 = 0
      · rw [if_pos hc] at houtcome
        cases houtcome
      · rw [if_neg hc] at houtcome ⊢
        rw [ih _ (done + 1) houtcome]
        omega

theorem claim8_witness :
    runEngine ⟨[(0, ⟨0, [], 1, ∅⟩)]⟩ [] [0] 3 =
      ⟨⟨[(0, ⟨0, [], 1, ∅⟩)]⟩, 1, .noRewritesPending⟩ :=
  (claim8_fixpoint_termination ⟨[(0, ⟨0, [], 1, ∅⟩)]⟩ [] [0] 2
    (fun _ _ => rfl)).1

/-- C10: the registered depth-to-space matcher matches a candidate root
precisely when it is a DepthToSpace node whose single input is produced by
a Multiply node; on any non-matching node the rule yields no match and its
callback is never invoked. -/
theorem claim10_dts_matcher (g : Graph) (n : NodeId) :
    (matchPattern g dtsPattern n = true ↔
      ∃ nd, g.find n = some nd ∧ nd.op = opDepthToSpace ∧
        ∃ o, nd.inputs = [o] ∧
          ∃ pnd, g.find o.producer = some pnd ∧ pnd.op = opMultiply) ∧
    (∀ gd rw rs, matchPattern g dtsPattern n = false →
      tryRulesAt g (⟨dtsPattern, gd, rw⟩ :: rs) n = tryRulesAt g rs n) := by
  constructor
  · unfold dtsPattern
    constructor
    · intro h
      rw [matchPattern] at h
      cases hf : g.find n with
      | none => rw [hf] at h; cases h
      | some nd =>
        rw [hf] at h
        rw [Bool.and_eq_true, beq_iff_eq] at h
        refine ⟨nd, rfl, h.1, ?_⟩
        have h2 := h.2
        cases hin : nd.inputs with
        | nil => rw [hin] at h2; rw [matchArgs] at h2; cases h2
        | cons o os =>
          rw [hin] at h2
          rw [matchArgs, Bool.and_eq_true] at h2
          cases hos : os with
          | cons o2 os2 => rw [hos] at h2; rw [matchArgs] at h2; exact absurd h2.2 (by simp)
          | nil =>
            refine ⟨o, by simp [hin], ?_⟩
            have h3 := h2.1
            rw [matchPattern] at h3
            cases hp : g.find o.producer with
            | none => rw [hp] at h3; cases h3
            | some pnd =>
              rw [hp] at h3
              exact ⟨pnd, rfl, beq_iff_eq.mp h3⟩
    · rintro ⟨nd, hf, hop, o, hin, pnd, hp, hpop⟩
      simp only [matchPattern, matchArgs, hf, hin, hp]
      simp [hop, hpop]
  · intro gd rw_ rs h
    simp [tryRulesAt, h]

theorem claim10_witness :
    matchPattern ⟨[(1, ⟨2, [], 1, ∅⟩), (2, ⟨1, [⟨1, 0⟩], 1, ∅⟩)]⟩
      dtsPattern 2 = true :=
  (claim10_dts_matcher _ 2).1.mpr
    ⟨⟨1, [⟨1, 0⟩], 1, ∅⟩, rfl, rfl, ⟨1, 0⟩, rfl, ⟨2, [], 1, ∅⟩, rfl, rfl⟩

end GraphSpec
